import Mathlib

/-!
Shallow embedding of `get_factors.py`: the S&P 500 ticker resolver, the
yfinance and Financial Modeling Prep (FMP) fetch loops, the fallback
coordinator in `main`, and the final `pd.DataFrame` outer-join merge.

Dates are modelled as natural numbers, adjusted prices as rationals, and
floating-point special values (`NaN`, `±inf`) by the explicit type `FVal`.
Python dictionaries are modelled as association lists with Python's
insertion semantics (assigning to an existing key overwrites in place).
-/

namespace GetFactors

/-- A floating-point cell value: `nan` is the missing-value marker,
`pinf`/`ninf` are the IEEE infinities, `val q` an ordinary number. -/
inductive FVal where
  | nan : FVal
  | pinf : FVal
  | ninf : FVal
  | val : ℚ → FVal
deriving DecidableEq, Repr

/-- One step of pandas `pct_change`: `curr/prev - 1`, with float division
semantics when the previous price is zero (`0/0 = NaN`, `x/0 = ±inf`). -/
def pctStep (prev curr : ℚ) : FVal :=
  if prev = 0 then
    if curr = 0 then FVal.nan
    else if 0 < curr then FVal.pinf
    else FVal.ninf
  else FVal.val (curr / prev - 1)

/-- Tail of `pct_change`: each element paired with its predecessor. -/
def pctChangeAux : ℚ → List ℚ → List FVal
  | _, [] => []
  | prev, c :: rest => pctStep prev c :: pctChangeAux c rest

/-- pandas `Series.pct_change`: the first observation has no defined
return and becomes `NaN`; every later one is `price[i]/price[i-1] - 1`. -/
def pctChange : List ℚ → List FVal
  | [] => []
  | p :: rest => FVal.nan :: pctChangeAux p rest

/-- The line `replace([np.inf, -np.inf], np.nan)`: infinities become the
missing-value marker, everything else is untouched. -/
def replaceInf : FVal → FVal
  | FVal.pinf => FVal.nan
  | FVal.ninf => FVal.nan
  | v => v

/-- The `Return` column as stored by both adapters: `pct_change` followed
by the infinity replacement. -/
def computeReturns (prices : List ℚ) : List FVal :=
  (pctChange prices).map replaceInf

/-- A per-ticker return series: (date, return) pairs in index order. -/
abbrev Series := List (ℕ × FVal)

/-- The yfinance adapter's stored series for one ticker: the fetched rows'
dates paired with the computed returns (`stock_data['Return']`). -/
def mkSeries (rows : List (ℕ × ℚ)) : Series :=
  (rows.map Prod.fst).zip (computeReturns (rows.map Prod.snd))

theorem pctChangeAux_length (l : List ℚ) : ∀ prev, (pctChangeAux prev l).length = l.length := by
  induction l with
  | nil => intro prev; rfl
  | cons c rest ih => intro prev; simp [pctChangeAux, ih]

theorem pctChange_length (prices : List ℚ) : (pctChange prices).length = prices.length := by
  cases prices with
  | nil => rfl
  | cons p rest => simp [pctChange, pctChangeAux_length]

theorem computeReturns_length (prices : List ℚ) :
    (computeReturns prices).length = prices.length := by
  simp [computeReturns, pctChange_length]

theorem computeReturns_head (p : ℚ) (rest : List ℚ) :
    (computeReturns (p :: rest)).head? = some FVal.nan := by
  simp [computeReturns, pctChange, replaceInf]

theorem pctChangeAux_getElem (l : List ℚ) :
    ∀ (prev q p : ℚ) (j : ℕ), (prev :: l)[j]? = some q → l[j]? = some p →
      (pctChangeAux prev l)[j]? = some (pctStep q p) := by
  induction l with
  | nil =>
    intro prev q p j _ hp
    simp at hp
  | cons c rest ih =>
    intro prev q p j hq hp
    cases j with
    | zero =>
      simp at hq hp
      subst hq; subst hp
      simp [pctChangeAux]
    | succ j =>
      simp only [List.getElem?_cons_succ] at hq hp
      simpa [pctChangeAux] using ih c q p j hq hp

theorem pctChange_getElem_succ (prices : List ℚ) (q p : ℚ) (j : ℕ)
    (hq : prices[j]? = some q) (hp : prices[j + 1]? = some p) :
    (pctChange prices)[j + 1]? = some (pctStep q p) := by
  cases prices with
  | nil => simp at hq
  | cons c rest =>
    simp only [List.getElem?_cons_succ] at hp
    simpa [pctChange] using pctChangeAux_getElem rest c q p j hq hp

theorem computeReturns_getElem_succ (prices : List ℚ) (q p : ℚ) (j : ℕ)
    (hq : prices[j]? = some q) (hp : prices[j + 1]? = some p) :
    (computeReturns prices)[j + 1]? = some (replaceInf (pctStep q p)) := by
  simp [computeReturns, pctChange_getElem_succ prices q p j hq hp]

theorem replaceInf_ne_inf (v : FVal) :
    replaceInf v ≠ FVal.pinf ∧ replaceInf v ≠ FVal.ninf := by
  cases v <;> simp [replaceInf]

/-! ### Python dictionaries as association lists -/

/-- Left-biased choice on options, mirroring "last write wins" lookups. -/
def optOr {α : Type} (a b : Option α) : Option α :=
  match a with
  | some x => some x
  | none => b

/-- Lookup of a key in a Python dict modelled as an association list. -/
def dictLookup {β : Type} : List (String × β) → String → Option β
  | [], _ => none
  | (k, v) :: d, t => if k = t then some v else dictLookup d t

/-- Python dict assignment `d[k] = v`: overwrite the existing entry in
place, or append a new one. -/
def dictInsert {β : Type} : List (String × β) → String → β → List (String × β)
  | [], k, v => [(k, v)]
  | (k0, v0) :: d, k, v =>
    if k0 = k then (k0, v) :: d else (k0, v0) :: dictInsert d k v

/-- Python `d.update(d2)`: assign every entry of `d2` into `d` in order. -/
def dictUpdate {β : Type} (d d2 : List (String × β)) : List (String × β) :=
  d2.foldl (fun acc p => dictInsert acc p.1 p.2) d

theorem dictLookup_insert {β : Type} (d : List (String × β)) (k : String) (v : β)
    (t : String) :
    dictLookup (dictInsert d k v) t = if k = t then some v else dictLookup d t := by
  induction d with
  | nil => simp [dictInsert, dictLookup]
  | cons p d ih =>
    obtain ⟨k0, v0⟩ := p
    by_cases h0 : k0 = k
    · have hl : dictInsert ((k0, v0) :: d) k v = (k0, v) :: d := by
        simp [dictInsert, h0]
      rw [hl]
      simp only [dictLookup]
      rw [h0]
      by_cases ht : k = t
      · simp [ht]
      · simp [ht]
    · have hl : dictInsert ((k0, v0) :: d) k v = (k0, v0) :: dictInsert d k v := by
        simp [dictInsert, h0]
      rw [hl]
      simp only [dictLookup, ih]
      by_cases ht : k0 = t
      · have hkt : ¬ k = t := fun hkt => h0 (ht.trans hkt.symm)
        simp [ht, hkt]
      · simp [ht]

theorem keys_dictInsert {β : Type} (d : List (String × β)) (k : String) (v : β)
    (t : String) :
    t ∈ (dictInsert d k v).map Prod.fst ↔ t ∈ d.map Prod.fst ∨ t = k := by
  induction d with
  | nil => simp [dictInsert]
  | cons p d ih =>
    obtain ⟨k0, v0⟩ := p
    by_cases h0 : k0 = k
    · have hl : dictInsert ((k0, v0) :: d) k v = (k0, v) :: d := by
        simp [dictInsert, h0]
      rw [hl, ← h0]
      simp only [List.map_cons, List.mem_cons]
      tauto
    · have hl : dictInsert ((k0, v0) :: d) k v = (k0, v0) :: dictInsert d k v := by
        simp [dictInsert, h0]
      rw [hl]
      simp only [List.map_cons, List.mem_cons, ih]
      tauto

theorem nodup_keys_dictInsert {β : Type} (d : List (String × β)) (k : String) (v : β)
    (h : (d.map Prod.fst).Nodup) : ((dictInsert d k v).map Prod.fst).Nodup := by
  induction d with
  | nil => simp [dictInsert]
  | cons p d ih =>
    obtain ⟨k0, v0⟩ := p
    simp only [List.map_cons, List.nodup_cons] at h
    obtain ⟨hnotin, hnd⟩ := h
    by_cases h0 : k0 = k
    · have hl : dictInsert ((k0, v0) :: d) k v = (k0, v) :: d := by
        simp [dictInsert, h0]
      rw [hl]
      simp only [List.map_cons, List.nodup_cons]
      exact ⟨hnotin, hnd⟩
    · have hl : dictInsert ((k0, v0) :: d) k v = (k0, v0) :: dictInsert d k v := by
        simp [dictInsert, h0]
      rw [hl]
      simp only [List.map_cons, List.nodup_cons]
      refine ⟨?_, ih hnd⟩
      intro hmem
      rcases (keys_dictInsert d k v k0).mp hmem with hin | heq
      · exact hnotin hin
      · exact h0 heq

theorem dictLookup_eq_none_of_not_mem {β : Type} (d : List (String × β)) (t : String)
    (h : t ∉ d.map Prod.fst) : dictLookup d t = none := by
  induction d with
  | nil => rfl
  | cons p d ih =>
    obtain ⟨k0, v0⟩ := p
    simp only [List.map_cons, List.mem_cons] at h
    push_neg at h
    have hk : ¬ k0 = t := fun hh => h.1 hh.symm
    simp [dictLookup, hk, ih h.2]

theorem dictLookup_update {β : Type} (d d2 : List (String × β)) (t : String)
    (h : (d2.map Prod.fst).Nodup) :
    dictLookup (dictUpdate d d2) t = optOr (dictLookup d2 t) (dictLookup d t) := by
  induction d2 generalizing d with
  | nil => simp [dictUpdate, dictLookup, optOr]
  | cons p d2 ih =>
    obtain ⟨k, v⟩ := p
    simp only [List.map_cons, List.nodup_cons] at h
    have step : dictUpdate d ((k, v) :: d2) = dictUpdate (dictInsert d k v) d2 := rfl
    rw [step, ih _ h.2]
    by_cases ht : k = t
    · subst ht
      have h2 : dictLookup d2 k = none :=
        dictLookup_eq_none_of_not_mem d2 k h.1
      simp [h2, dictLookup, optOr, dictLookup_insert]
    · simp [dictLookup, ht, dictLookup_insert]

theorem keys_dictUpdate {β : Type} (d d2 : List (String × β)) (t : String)
    (h : t ∈ (dictUpdate d d2).map Prod.fst) :
    t ∈ d.map Prod.fst ∨ t ∈ d2.map Prod.fst := by
  induction d2 generalizing d with
  | nil => exact Or.inl h
  | cons p d2 ih =>
    obtain ⟨k, v⟩ := p
    have step : dictUpdate d ((k, v) :: d2) = dictUpdate (dictInsert d k v) d2 := rfl
    rw [step] at h
    rcases ih _ h with hin | hin
    · rcases (keys_dictInsert d k v t).mp hin with hd | hk
      · exact Or.inl hd
      · right; simp [hk]
    · right; simp [hin]

theorem nodup_keys_dictUpdate {β : Type} (d d2 : List (String × β))
    (h : (d.map Prod.fst).Nodup) : ((dictUpdate d d2).map Prod.fst).Nodup := by
  induction d2 generalizing d with
  | nil => exact h
  | cons p d2 ih =>
    obtain ⟨k, v⟩ := p
    have step : dictUpdate d ((k, v) :: d2) = dictUpdate (dictInsert d k v) d2 := rfl
    rw [step]
    exact ih _ (nodup_keys_dictInsert d k v h)

/-! ### Provider adapters -/

/-- Behaviour of `yf.download` for one ticker: either it raises some
exception, or it returns a data frame of (date, adjusted close) rows
(possibly empty). -/
inductive YfResult where
  | raise : YfResult
  | ok : List (ℕ × ℚ) → YfResult

/-- Behaviour of the FMP request/parse for one ticker: a raised exception
(transport, HTTP status, or JSON error), a JSON payload without the
`historical` field, or a payload with the raw (date, adjClose) records. -/
inductive FmpResult where
  | raise : FmpResult
  | noHistorical : FmpResult
  | historical : List (ℕ × ℚ) → FmpResult

/-- What the yfinance loop body stores for one ticker: the computed
return series on non-empty data, nothing on empty data or an exception. -/
def yfOutcome (fetch : String → YfResult) (t : String) : Option Series :=
  match fetch t with
  | YfResult.raise => none
  | YfResult.ok rows => if rows.isEmpty then none else some (mkSeries rows)

/-- One iteration of the yfinance loop over `all_stock_data`. -/
def yfStep (fetch : String → YfResult) (acc : List (String × Series)) (t : String) :
    List (String × Series) :=
  match fetch t with
  | YfResult.raise => acc
  | YfResult.ok rows => if rows.isEmpty then acc else dictInsert acc t (mkSeries rows)

/-- The function `get_stock_data_yf`: the per-ticker try/except loop. -/
def get_stock_data_yf (fetch : String → YfResult) (tickers : List String) :
    List (String × Series) :=
  tickers.foldl (yfStep fetch) []

/-- Sorted insert on (date, price) rows, non-strict on equal dates. -/
def insertByDate (p : ℕ × ℚ) : List (ℕ × ℚ) → List (ℕ × ℚ)
  | [] => [p]
  | q :: l => if p.1 < q.1 then p :: q :: l else q :: insertByDate p l

/-- The `df.sort_index()` call of the FMP adapter: sort rows ascending by
date (duplicate dates are kept). -/
def sortByDate : List (ℕ × ℚ) → List (ℕ × ℚ)
  | [] => []
  | p :: l => insertByDate p (sortByDate l)

/-- The FMP adapter's stored series: rows sorted ascending by date, then
returns computed from the sorted adjusted closes. -/
def fmpSeries (rows : List (ℕ × ℚ)) : Series :=
  ((sortByDate rows).map Prod.fst).zip (computeReturns ((sortByDate rows).map Prod.snd))

/-- What the FMP loop body stores for one ticker.  An empty `historical`
list raises inside the `try` (no `date` column), so nothing is stored. -/
def fmpOutcome (fetch : String → FmpResult) (t : String) : Option Series :=
  match fetch t with
  | FmpResult.raise => none
  | FmpResult.noHistorical => none
  | FmpResult.historical rows => if rows.isEmpty then none else some (fmpSeries rows)

/-- One iteration of the FMP loop over `all_stock_data`. -/
def fmpStep (fetch : String → FmpResult) (acc : List (String × Series)) (t : String) :
    List (String × Series) :=
  match fetch t with
  | FmpResult.raise => acc
  | FmpResult.noHistorical => acc
  | FmpResult.historical rows =>
    if rows.isEmpty then acc else dictInsert acc t (fmpSeries rows)

/-- The function `get_stock_data_fmp`: the per-ticker try/except loop. -/
def get_stock_data_fmp (fetch : String → FmpResult) (tickers : List String) :
    List (String × Series) :=
  tickers.foldl (fmpStep fetch) []

/-- Generic form of both loop bodies: store the ticker's outcome if there
is one, leave the dict alone otherwise. -/
def collectStep {β : Type} (outcome : String → Option β)
    (acc : List (String × β)) (t : String) : List (String × β) :=
  match outcome t with
  | none => acc
  | some s => dictInsert acc t s

theorem yfStep_eq_collectStep (fetch : String → YfResult) :
    yfStep fetch = collectStep (yfOutcome fetch) := by
  funext acc t
  simp only [yfStep, collectStep, yfOutcome]
  cases fetch t with
  | raise => rfl
  | ok rows =>
    by_cases h : rows.isEmpty
    · simp [h]
    · simp [h]

theorem fmpStep_eq_collectStep (fetch : String → FmpResult) :
    fmpStep fetch = collectStep (fmpOutcome fetch) := by
  funext acc t
  simp only [fmpStep, collectStep, fmpOutcome]
  cases fetch t with
  | raise => rfl
  | noHistorical => rfl
  | historical rows =>
    by_cases h : rows.isEmpty
    · simp [h]
    · simp [h]

theorem collect_lookup {β : Type} (outcome : String → Option β) (ts : List String)
    (acc : List (String × β)) (t : String) :
    dictLookup (ts.foldl (collectStep outcome) acc) t =
      optOr (if t ∈ ts then outcome t else none) (dictLookup acc t) := by
  induction ts generalizing acc with
  | nil => simp [optOr]
  | cons x rest ih =>
    simp only [List.foldl_cons, ih]
    by_cases hr : t ∈ rest
    · simp only [List.mem_cons, hr, or_true, if_pos]
      cases ho : outcome t with
      | some s => simp [optOr]
      | none =>
        simp only [optOr]
        by_cases hx : x = t
        · subst hx
          simp [collectStep, ho]
        · cases ho2 : outcome x with
          | none => simp [collectStep, ho2]
          | some s2 => simp [collectStep, ho2, dictLookup_insert, hx]
    · by_cases hx : x = t
      · subst hx
        simp only [List.mem_cons, true_or, if_pos, if_neg hr, collectStep]
        cases ho : outcome x with
        | none => simp [optOr, ho]
        | some s => simp [optOr, ho, dictLookup_insert]
      · have htx : ¬ t = x := fun h => hx h.symm
        have hnot : t ∉ x :: rest := by
          simp [List.mem_cons, hr, htx]
        simp only [if_neg hnot, if_neg hr, optOr]
        cases ho2 : outcome x with
        | none => simp [collectStep, ho2]
        | some s2 => simp [collectStep, ho2, dictLookup_insert, hx]

theorem collect_lookup_nil {β : Type} (outcome : String → Option β) (ts : List String)
    (t : String) :
    dictLookup (ts.foldl (collectStep outcome) []) t =
      if t ∈ ts then outcome t else none := by
  rw [collect_lookup]
  cases h : (if t ∈ ts then outcome t else none) with
  | none => simp [optOr, dictLookup]
  | some s => simp [optOr]

theorem get_stock_data_yf_lookup (fetch : String → YfResult) (tickers : List String)
    (t : String) :
    dictLookup (get_stock_data_yf fetch tickers) t =
      if t ∈ tickers then yfOutcome fetch t else none := by
  rw [get_stock_data_yf, yfStep_eq_collectStep]
  exact collect_lookup_nil (yfOutcome fetch) tickers t

theorem get_stock_data_fmp_lookup (fetch : String → FmpResult) (tickers : List String)
    (t : String) :
    dictLookup (get_stock_data_fmp fetch tickers) t =
      if t ∈ tickers then fmpOutcome fetch t else none := by
  rw [get_stock_data_fmp, fmpStep_eq_collectStep]
  exact collect_lookup_nil (fmpOutcome fetch) tickers t

theorem collect_keys_mem {β : Type} (outcome : String → Option β) (ts : List String)
    (acc : List (String × β)) (t : String)
    (h : t ∈ (ts.foldl (collectStep outcome) acc).map Prod.fst) :
    t ∈ acc.map Prod.fst ∨ t ∈ ts := by
  induction ts generalizing acc with
  | nil => exact Or.inl h
  | cons x rest ih =>
    simp only [List.foldl_cons] at h
    rcases ih (collectStep outcome acc x) h with hin | hin
    · cases ho : outcome x with
      | none =>
        simp only [collectStep, ho] at hin
        exact Or.inl hin
      | some s =>
        simp only [collectStep, ho] at hin
        rcases (keys_dictInsert acc x s t).mp hin with ha | heq
        · exact Or.inl ha
        · right; simp [heq]
    · right; simp [hin]

theorem collect_keys_nodup {β : Type} (outcome : String → Option β) (ts : List String)
    (acc : List (String × β)) (h : (acc.map Prod.fst).Nodup) :
    ((ts.foldl (collectStep outcome) acc).map Prod.fst).Nodup := by
  induction ts generalizing acc with
  | nil => exact h
  | cons x rest ih =>
    simp only [List.foldl_cons]
    apply ih
    cases ho : outcome x with
    | none => simpa [collectStep, ho] using h
    | some s =>
      simp only [collectStep, ho]
      exact nodup_keys_dictInsert acc x s h

theorem mem_insertByDate (p q : ℕ × ℚ) (l : List (ℕ × ℚ)) :
    q ∈ insertByDate p l ↔ q = p ∨ q ∈ l := by
  induction l with
  | nil => simp [insertByDate]
  | cons r l ih =>
    by_cases h : p.1 < r.1
    · simp only [insertByDate, if_pos h, List.mem_cons]
    · simp only [insertByDate, if_neg h, List.mem_cons, ih]
      tauto

theorem pairwise_insertByDate (p : ℕ × ℚ) (l : List (ℕ × ℚ))
    (h : l.Pairwise (fun a b => a.1 ≤ b.1)) :
    (insertByDate p l).Pairwise (fun a b => a.1 ≤ b.1) := by
  induction l with
  | nil => simp [insertByDate]
  | cons q l ih =>
    rw [List.pairwise_cons] at h
    by_cases hlt : p.1 < q.1
    · have hall : ∀ b ∈ q :: l, p.1 ≤ b.1 := by
        intro b hb
        rcases List.mem_cons.mp hb with rfl | hb
        · exact le_of_lt hlt
        · exact le_trans (le_of_lt hlt) (h.1 b hb)
      simp only [insertByDate, if_pos hlt]
      exact List.Pairwise.cons hall (List.Pairwise.cons h.1 h.2)
    · have hall : ∀ b ∈ insertByDate p l, q.1 ≤ b.1 := by
        intro b hb
        rcases (mem_insertByDate p b l).mp hb with rfl | hb
        · exact Nat.le_of_not_lt hlt
        · exact h.1 b hb
      simp only [insertByDate, if_neg hlt]
      exact List.Pairwise.cons hall (ih h.2)

theorem sortByDate_pairwise (rows : List (ℕ × ℚ)) :
    (sortByDate rows).Pairwise (fun a b => a.1 ≤ b.1) := by
  induction rows with
  | nil => simp [sortByDate]
  | cons p l ih => exact pairwise_insertByDate p (sortByDate l) ih

theorem fmpSeries_dates (rows : List (ℕ × ℚ)) :
    (fmpSeries rows).map Prod.fst = (sortByDate rows).map Prod.fst := by
  apply List.map_fst_zip
  simp [computeReturns_length]

theorem fmpSeries_values (rows : List (ℕ × ℚ)) :
    (fmpSeries rows).map Prod.snd = computeReturns ((sortByDate rows).map Prod.snd) := by
  apply List.map_snd_zip
  simp [computeReturns_length]

/-! ### The merge into one DataFrame (AlignmentMerger) -/

/-- Insert a date into a strictly sorted date list, dropping duplicates. -/
def insertDate (x : ℕ) : List ℕ → List ℕ
  | [] => [x]
  | y :: l =>
    if x < y then x :: y :: l
    else if x = y then y :: l
    else y :: insertDate x l

/-- The sorted union of all dates appearing in any of the given lists:
the row index `pd.DataFrame` builds for a dict of date-indexed series. -/
def unionDates (ls : List (List ℕ)) : List ℕ :=
  ls.flatten.foldr insertDate []

/-- Cell lookup in one series, pandas-style: the date's value if present,
the missing-value marker `NaN` if the series has no such date. -/
def seriesGet (s : Series) (d : ℕ) : FVal :=
  match s with
  | [] => FVal.nan
  | p :: rest => if p.1 = d then p.2 else seriesGet rest d

/-- The final artifact: a row index of dates and one column per ticker. -/
structure ReturnTable where
  dates : List ℕ
  cols : List (String × List FVal)
deriving DecidableEq, Repr

/-- The call `pd.DataFrame(stock_returns)`: outer-join alignment of all
series on the sorted union of their dates, one column per ticker, absent
dates filled with `NaN`. -/
def pdDataFrame (d : List (String × Series)) : ReturnTable :=
  let dates := unionDates (d.map (fun p => p.2.map Prod.fst))
  { dates := dates, cols := d.map (fun p => (p.1, dates.map (seriesGet p.2))) }

theorem mem_insertDate (x y : ℕ) (l : List ℕ) :
    y ∈ insertDate x l ↔ y = x ∨ y ∈ l := by
  induction l with
  | nil => simp [insertDate]
  | cons z l ih =>
    by_cases h1 : x < z
    · simp only [insertDate, if_pos h1, List.mem_cons]
    · by_cases h2 : x = z
      · subst h2
        have hl : insertDate x (x :: l) = x :: l := by
          simp [insertDate, h1]
        rw [hl]
        simp only [List.mem_cons]
        tauto
      · simp only [insertDate, if_neg h1, if_neg h2, List.mem_cons, ih]
        tauto

theorem sorted_insertDate (x : ℕ) (l : List ℕ) (h : List.Sorted (· < ·) l) :
    List.Sorted (· < ·) (insertDate x l) := by
  induction l with
  | nil => simp [insertDate]
  | cons y l ih =>
    rw [List.sorted_cons] at h
    by_cases h1 : x < y
    · have hall : ∀ b ∈ y :: l, x < b := by
        intro b hb
        rcases List.mem_cons.mp hb with rfl | hb
        · exact h1
        · exact lt_trans h1 (h.1 b hb)
      simp only [insertDate, if_pos h1]
      exact List.Pairwise.cons hall (List.Pairwise.cons h.1 h.2)
    · by_cases h2 : x = y
      · simp only [insertDate, if_neg h1, if_pos h2]
        exact List.Pairwise.cons h.1 h.2
      · have hy : y < x := lt_of_le_of_ne (Nat.le_of_not_lt h1) (Ne.symm h2)
        have hall : ∀ b ∈ insertDate x l, y < b := by
          intro b hb
          rcases (mem_insertDate x b l).mp hb with rfl | hb
          · exact hy
          · exact h.1 b hb
        simp only [insertDate, if_neg h1, if_neg h2]
        exact List.Pairwise.cons hall (ih h.2)

theorem sorted_foldr_insertDate (l acc : List ℕ) (h : List.Sorted (· < ·) acc) :
    List.Sorted (· < ·) (l.foldr insertDate acc) := by
  induction l with
  | nil => exact h
  | cons x l ih => exact sorted_insertDate x _ ih

theorem mem_foldr_insertDate (l acc : List ℕ) (x : ℕ) :
    x ∈ l.foldr insertDate acc ↔ x ∈ l ∨ x ∈ acc := by
  induction l with
  | nil => simp
  | cons y l ih =>
    simp only [List.foldr_cons, mem_insertDate, ih, List.mem_cons]
    tauto

theorem unionDates_sorted (ls : List (List ℕ)) :
    List.Sorted (· < ·) (unionDates ls) :=
  sorted_foldr_insertDate _ [] (by simp)

theorem mem_unionDates (ls : List (List ℕ)) (x : ℕ) :
    x ∈ unionDates ls ↔ ∃ l ∈ ls, x ∈ l := by
  rw [unionDates, mem_foldr_insertDate]
  simp [List.mem_flatten]

theorem foldr_insertDate_self (l : List ℕ) (h : List.Sorted (· < ·) l) :
    l.foldr insertDate [] = l := by
  induction l with
  | nil => rfl
  | cons x l ih =>
    rw [List.sorted_cons] at h
    simp only [List.foldr_cons, ih h.2]
    cases l with
    | nil => rfl
    | cons y l =>
      have hxy : x < y := h.1 y (by simp)
      simp [insertDate, hxy]

theorem seriesGet_not_mem (s : Series) (d : ℕ) (h : d ∉ s.map Prod.fst) :
    seriesGet s d = FVal.nan := by
  induction s with
  | nil => rfl
  | cons p rest ih =>
    simp only [List.map_cons, List.mem_cons] at h
    push_neg at h
    have hp : ¬ p.1 = d := fun hh => h.1 hh.symm
    simp [seriesGet, hp, ih h.2]

theorem map_seriesGet_self (s : Series) (h : (s.map Prod.fst).Nodup) :
    (s.map Prod.fst).map (seriesGet s) = s.map Prod.snd := by
  induction s with
  | nil => rfl
  | cons p rest ih =>
    simp only [List.map_cons, List.nodup_cons] at h
    obtain ⟨hnotin, hnd⟩ := h
    simp only [List.map_cons, seriesGet, if_pos rfl, List.cons.injEq]
    refine ⟨rfl, ?_⟩
    rw [List.map_congr_left (fun d hd => ?_), ih hnd]
    have hne : ¬ p.1 = d := fun hh => hnotin (hh ▸ hd)
    simp [seriesGet, hne]

/-- An uncaught Python exception escaping the modelled code: the
`KeyError` of a missing `Symbol` column, or the `ValueError` pandas
raises when reindexing a duplicate-label series during alignment. -/
inductive PyErr where
  | keyError : PyErr
  | valueError : PyErr
deriving DecidableEq

/-- Whether all series of the dict carry elementwise-equal date indexes
(pandas `union_indexes` short-circuits in that case and keeps the common
index as-is, duplicates and order included). -/
def allDatesEq : List (String × Series) → Bool
  | [] => true
  | p :: rest => rest.all (fun q => decide (q.2.map Prod.fst = p.2.map Prod.fst))

/-- The first series' date index (the common index when `allDatesEq`). -/
def headDates : List (String × Series) → List ℕ
  | [] => []
  | p :: _ => p.2.map Prod.fst

/-- The call `pd.DataFrame(stock_returns)` as executed at line 97.  When
all series share one index it is used directly (no reindexing, duplicate
labels kept).  Otherwise pandas aligns on the deduplicated sorted union
and reindexes each series, which raises an uncaught
`ValueError: cannot reindex from a duplicate axis` as soon as some
series' own index carries a duplicate label. -/
def pdDataFrameCall (d : List (String × Series)) : Except PyErr ReturnTable :=
  if allDatesEq d then
    Except.ok
      { dates := headDates d, cols := d.map (fun p => (p.1, p.2.map Prod.snd)) }
  else if d.all (fun p => decide ((p.2.map Prod.fst).Nodup)) then
    Except.ok (pdDataFrame d)
  else Except.error PyErr.valueError

/-! ### Ticker resolution and the main pipeline -/

/-- A cell of the `Symbol` column: a string, or a non-string (NaN). -/
inductive Cell where
  | str : String → Cell
  | nanCell : Cell
deriving DecidableEq

/-- Outcome of `pd.read_csv`: the file is missing, or it is found with
named columns of cells. -/
inductive CsvOutcome where
  | missing : CsvOutcome
  | found : List (String × List Cell) → CsvOutcome

/-- The function `get_sp500_tickers`: a missing file is caught and yields
`[]`; a present file is indexed by the `Symbol` column (an uncaught
`KeyError` if absent) and its string cells are kept. -/
def get_sp500_tickers (csv : CsvOutcome) : Except PyErr (List String) :=
  match csv with
  | CsvOutcome.missing => Except.ok []
  | CsvOutcome.found cols =>
    match dictLookup cols "Symbol" with
    | none => Except.error PyErr.keyError
    | some cells =>
      Except.ok (cells.filterMap (fun c =>
        match c with
        | Cell.str s => some s
        | Cell.nanCell => none))

/-- Python truthiness of `os.getenv('FMP_API_KEY')`: false when the
variable is unset (`None`) or set to the empty string. -/
def truthy : Option String → Bool
  | none => false
  | some s => !s.isEmpty

/-- Lines 85-94 of `main`: run yfinance over all tickers, compute the
failed subset, and fall back to FMP for exactly that subset when an API
key is configured.  Returns the final mapping together with the list of
tickers FMP was invoked on. -/
def fallbackRun (tickers : List String) (fetchYf : String → YfResult)
    (apiKey : Option String) (fetchFmp : String → FmpResult) :
    List (String × Series) × List String :=
  let sr := get_stock_data_yf fetchYf tickers
  let failed := tickers.filter (fun t => (dictLookup sr t).isNone)
  if !failed.isEmpty && truthy apiKey then
    (dictUpdate sr (get_stock_data_fmp fetchFmp failed), failed)
  else (sr, [])

/-- Outcome of one whole run of `main`: the constructed DataFrame if the
run reached line 97 (`none` when `main` returned early at line 82), and
the tickers the FMP fallback was invoked on. -/
structure RunResult where
  table : Option ReturnTable
  fmpCalled : List String
deriving DecidableEq

/-- The function `main`: resolve tickers (propagating any uncaught
exception), exit early on an empty list, otherwise run the fallback
coordinator and build the final DataFrame at line 97 (propagating the
alignment `ValueError` when that construction raises). -/
def main (csv : CsvOutcome) (fetchYf : String → YfResult) (apiKey : Option String)
    (fetchFmp : String → FmpResult) : Except PyErr RunResult :=
  match get_sp500_tickers csv with
  | Except.error e => Except.error e
  | Except.ok tickers =>
    if tickers.isEmpty then Except.ok { table := none, fmpCalled := [] }
    else
      let r := fallbackRun tickers fetchYf apiKey fetchFmp
      match pdDataFrameCall r.1 with
      | Except.error e => Except.error e
      | Except.ok tbl => Except.ok { table := some tbl, fmpCalled := r.2 }

/-! ### Claim theorems -/

theorem mem_computeReturns_ne_inf (prices : List ℚ) (v : FVal)
    (h : v ∈ computeReturns prices) : v ≠ FVal.pinf ∧ v ≠ FVal.ninf := by
  rw [computeReturns] at h
  obtain ⟨u, _, rfl⟩ := List.mem_map.mp h
  exact replaceInf_ne_inf u

theorem yfOutcome_eq_some (fetch : String → YfResult) (t : String) (s : Series)
    (h : yfOutcome fetch t = some s) : ∃ rows, s = mkSeries rows := by
  rw [yfOutcome] at h
  cases hf : fetch t with
  | raise => simp [hf] at h
  | ok rows =>
    rw [hf] at h
    by_cases he : rows.isEmpty
    · simp [he] at h
    · simp [he] at h
      exact ⟨rows, h.symm⟩

theorem fmpOutcome_eq_some (fetch : String → FmpResult) (t : String) (s : Series)
    (h : fmpOutcome fetch t = some s) : ∃ rows, s = fmpSeries rows := by
  rw [fmpOutcome] at h
  cases hf : fetch t with
  | raise => simp [hf] at h
  | noHistorical => simp [hf] at h
  | historical rows =>
    rw [hf] at h
    by_cases he : rows.isEmpty
    · simp [he] at h
    · simp [he] at h
      exact ⟨rows, h.symm⟩

theorem lookup_yf_outcome (fetch : String → YfResult) (tickers : List String)
    (t : String) (s : Series)
    (h : dictLookup (get_stock_data_yf fetch tickers) t = some s) :
    yfOutcome fetch t = some s := by
  rw [get_stock_data_yf_lookup] at h
  by_cases ht : t ∈ tickers
  · rwa [if_pos ht] at h
  · rw [if_neg ht] at h; exact absurd h (by simp)

theorem lookup_fmp_outcome (fetch : String → FmpResult) (tickers : List String)
    (t : String) (s : Series)
    (h : dictLookup (get_stock_data_fmp fetch tickers) t = some s) :
    fmpOutcome fetch t = some s := by
  rw [get_stock_data_fmp_lookup] at h
  by_cases ht : t ∈ tickers
  · rwa [if_pos ht] at h
  · rw [if_neg ht] at h; exact absurd h (by simp)

/-- C2: for every adjusted-price sequence of length at least 1, the
computed return series has one entry per price, its first entry is the
missing-value marker `NaN` (never zero), every later entry at a nonzero
prior price equals `price[i]/price[i-1] - 1`, and the prices
`[100, 110, 99]` produce the returns `[NaN, 0.10, -0.10]`. -/
theorem c2_return_computation :
    (∀ (p : ℚ) (rest : List ℚ), (computeReturns (p :: rest)).head? = some FVal.nan) ∧
    (∀ prices : List ℚ, (computeReturns prices).length = prices.length) ∧
    (∀ (prices : List ℚ) (i : ℕ) (p q : ℚ), 1 ≤ i → prices[i]? = some p →
      prices[i - 1]? = some q → q ≠ 0 →
      (computeReturns prices)[i]? = some (FVal.val (p / q - 1))) ∧
    computeReturns [100, 110, 99] =
      [FVal.nan, FVal.val (1 / 10), FVal.val (-(1 / 10))] ∧
    FVal.nan ≠ FVal.val 0 := by
  refine ⟨computeReturns_head, computeReturns_length, ?_, ?_, by decide⟩
  · intro prices i p q h1 hp hq hq0
    cases i with
    | zero => omega
    | succ j =>
      simp only [Nat.succ_sub_one] at hq
      rw [computeReturns_getElem_succ prices q p j hq hp]
      simp [pctStep, hq0, replaceInf]
  · norm_num [computeReturns, pctChange, pctChangeAux, pctStep, replaceInf]

/-- Witness for C2 at the concrete prices `[100, 110, 99]`, index 2. -/
theorem c2_return_computation_check :
    (computeReturns [100, 110, 99])[2]? = some (FVal.val ((99 : ℚ) / 110 - 1)) :=
  c2_return_computation.2.2.1 [100, 110, 99] 2 99 110 (by norm_num) rfl rfl
    (by norm_num)

/-- C6: a zero price immediately before a nonzero price yields the
missing-value marker at that step, and no series stored by either fetch
loop ever contains a positive or negative infinity. -/
theorem c6_no_infinite_values :
    (∀ (prices : List ℚ) (i : ℕ) (p : ℚ), 1 ≤ i → prices[i - 1]? = some 0 →
      prices[i]? = some p → p ≠ 0 → (computeReturns prices)[i]? = some FVal.nan) ∧
    (∀ (fetch : String → YfResult) (tickers : List String) (t : String) (s : Series),
      dictLookup (get_stock_data_yf fetch tickers) t = some s →
      ∀ e ∈ s, e.2 ≠ FVal.pinf ∧ e.2 ≠ FVal.ninf) ∧
    (∀ (fetch : String → FmpResult) (tickers : List String) (t : String) (s : Series),
      dictLookup (get_stock_data_fmp fetch tickers) t = some s →
      ∀ e ∈ s, e.2 ≠ FVal.pinf ∧ e.2 ≠ FVal.ninf) := by
  refine ⟨?_, ?_, ?_⟩
  · intro prices i p h1 hq hp hp0
    cases i with
    | zero => omega
    | succ j =>
      simp only [Nat.succ_sub_one] at hq
      rw [computeReturns_getElem_succ prices 0 p j hq hp]
      by_cases hpos : 0 < p
      · simp [pctStep, hp0, hpos, replaceInf]
      · simp [pctStep, hp0, hpos, replaceInf]
  · intro fetch tickers t s h e he
    obtain ⟨rows, rfl⟩ := yfOutcome_eq_some fetch t s (lookup_yf_outcome fetch tickers t s h)
    obtain ⟨d0, v⟩ := e
    exact mem_computeReturns_ne_inf _ v (List.of_mem_zip he).2
  · intro fetch tickers t s h e he
    obtain ⟨rows, rfl⟩ := fmpOutcome_eq_some fetch t s (lookup_fmp_outcome fetch tickers t s h)
    obtain ⟨d0, v⟩ := e
    exact mem_computeReturns_ne_inf _ v (List.of_mem_zip he).2

/-- Witness for C6: a zero price before the nonzero price 5 produces the
missing-value marker, not an infinity. -/
theorem c6_no_infinite_values_check :
    (computeReturns [0, 5])[1]? = some FVal.nan :=
  c6_no_infinite_values.1 [0, 5] 1 5 (by norm_num) rfl rfl (by norm_num)

/-- C4: each fetch loop is a per-ticker try/except: a ticker's entry in
the returned mapping depends only on that ticker's own fetch outcome, so
one ticker's transport/parsing/schema error leaves every other ticker's
outcome unaffected and the failed ticker simply absent. -/
theorem c4_failure_isolation :
    (∀ (fetch : String → YfResult) (tickers : List String) (t : String),
      dictLookup (get_stock_data_yf fetch tickers) t =
        if t ∈ tickers then yfOutcome fetch t else none) ∧
    (∀ (fetch : String → FmpResult) (tickers : List String) (t : String),
      dictLookup (get_stock_data_fmp fetch tickers) t =
        if t ∈ tickers then fmpOutcome fetch t else none) :=
  ⟨get_stock_data_yf_lookup, get_stock_data_fmp_lookup⟩

theorem nodup_keys_yf (fetch : String → YfResult) (tickers : List String) :
    ((get_stock_data_yf fetch tickers).map Prod.fst).Nodup := by
  rw [get_stock_data_yf, yfStep_eq_collectStep]
  exact collect_keys_nodup _ tickers [] (by simp)

theorem nodup_keys_fmp (fetch : String → FmpResult) (tickers : List String) :
    ((get_stock_data_fmp fetch tickers).map Prod.fst).Nodup := by
  rw [get_stock_data_fmp, fmpStep_eq_collectStep]
  exact collect_keys_nodup _ tickers [] (by simp)

theorem keys_yf_sub (fetch : String → YfResult) (tickers : List String) (t : String)
    (h : t ∈ (get_stock_data_yf fetch tickers).map Prod.fst) : t ∈ tickers := by
  rw [get_stock_data_yf, yfStep_eq_collectStep] at h
  rcases collect_keys_mem _ tickers [] t h with hin | hin
  · simp at hin
  · exact hin

theorem keys_fmp_sub (fetch : String → FmpResult) (tickers : List String) (t : String)
    (h : t ∈ (get_stock_data_fmp fetch tickers).map Prod.fst) : t ∈ tickers := by
  rw [get_stock_data_fmp, fmpStep_eq_collectStep] at h
  rcases collect_keys_mem _ tickers [] t h with hin | hin
  · simp at hin
  · exact hin

theorem mem_failed_iff (tickers : List String) (fetchYf : String → YfResult) (t : String) :
    t ∈ tickers.filter
        (fun u => (dictLookup (get_stock_data_yf fetchYf tickers) u).isNone) ↔
      t ∈ tickers ∧ yfOutcome fetchYf t = none := by
  rw [List.mem_filter]
  constructor
  · rintro ⟨ht, hn⟩
    rw [get_stock_data_yf_lookup, if_pos ht] at hn
    exact ⟨ht, Option.isNone_iff_eq_none.mp hn⟩
  · rintro ⟨ht, hn⟩
    refine ⟨ht, ?_⟩
    rw [get_stock_data_yf_lookup, if_pos ht, hn]
    rfl

/-- C1: the fallback tie-break.  A ticker the primary loop satisfied keeps
exactly the primary's computed series and is never passed to FMP; a ticker
the primary failed is served by FMP's normalized series when a key is
configured and FMP succeeds; FMP is only ever invoked on primary-failed
tickers, so no ticker is represented by both providers. -/
theorem c1_fallback_tiebreak :
    ∀ (tickers : List String) (fetchYf : String → YfResult) (apiKey : Option String)
      (fetchFmp : String → FmpResult) (t : String),
      (∀ s : Series, yfOutcome fetchYf t = some s → t ∈ tickers →
        dictLookup (fallbackRun tickers fetchYf apiKey fetchFmp).1 t = some s ∧
        t ∉ (fallbackRun tickers fetchYf apiKey fetchFmp).2) ∧
      (yfOutcome fetchYf t = none → t ∈ tickers → truthy apiKey = true →
        ∀ s : Series, fmpOutcome fetchFmp t = some s →
        dictLookup (fallbackRun tickers fetchYf apiKey fetchFmp).1 t = some s) ∧
      (t ∈ (fallbackRun tickers fetchYf apiKey fetchFmp).2 →
        yfOutcome fetchYf t = none) := by
  intro tickers fetchYf apiKey fetchFmp t
  by_cases hc :
      (!(tickers.filter
          (fun u => (dictLookup (get_stock_data_yf fetchYf tickers) u).isNone)).isEmpty
        && truthy apiKey) = true
  · have hrun : fallbackRun tickers fetchYf apiKey fetchFmp =
        (dictUpdate (get_stock_data_yf fetchYf tickers)
          (get_stock_data_fmp fetchFmp
            (tickers.filter
              (fun u => (dictLookup (get_stock_data_yf fetchYf tickers) u).isNone))),
         tickers.filter
           (fun u => (dictLookup (get_stock_data_yf fetchYf tickers) u).isNone)) := by
      simp only [fallbackRun]
      rw [if_pos hc]
    refine ⟨?_, ?_, ?_⟩
    · intro s hs ht
      have hnf : t ∉ tickers.filter
          (fun u => (dictLookup (get_stock_data_yf fetchYf tickers) u).isNone) := by
        intro hmem
        rw [mem_failed_iff] at hmem
        rw [hmem.2] at hs
        exact Option.noConfusion hs
      constructor
      · rw [hrun]
        simp only
        rw [dictLookup_update _ _ _ (nodup_keys_fmp _ _),
          get_stock_data_fmp_lookup, if_neg hnf, get_stock_data_yf_lookup,
          if_pos ht, hs]
        rfl
      · rw [hrun]
        exact hnf
    · intro hn ht _ s hg
      have hf : t ∈ tickers.filter
          (fun u => (dictLookup (get_stock_data_yf fetchYf tickers) u).isNone) :=
        (mem_failed_iff tickers fetchYf t).mpr ⟨ht, hn⟩
      rw [hrun]
      simp only
      rw [dictLookup_update _ _ _ (nodup_keys_fmp _ _),
        get_stock_data_fmp_lookup, if_pos hf, hg]
      rfl
    · intro hmem
      rw [hrun] at hmem
      exact ((mem_failed_iff tickers fetchYf t).mp hmem).2
  · have hrun : fallbackRun tickers fetchYf apiKey fetchFmp =
        (get_stock_data_yf fetchYf tickers, []) := by
      simp only [fallbackRun]
      rw [if_neg hc]
    refine ⟨?_, ?_, ?_⟩
    · intro s hs ht
      rw [hrun]
      constructor
      · simp only
        rw [get_stock_data_yf_lookup, if_pos ht, hs]
      · simp
    · intro hn ht htr s _
      exfalso
      have hf : t ∈ tickers.filter
          (fun u => (dictLookup (get_stock_data_yf fetchYf tickers) u).isNone) :=
        (mem_failed_iff tickers fetchYf t).mpr ⟨ht, hn⟩
      have hne : (tickers.filter
          (fun u => (dictLookup (get_stock_data_yf fetchYf tickers) u).isNone)).isEmpty
            = false := by
        cases hl : tickers.filter
            (fun u => (dictLookup (get_stock_data_yf fetchYf tickers) u).isNone) with
        | nil => rw [hl] at hf; exact absurd hf (by simp)
        | cons a l => rfl
      rw [hne, htr] at hc
      exact hc rfl
    · intro hmem
      rw [hrun] at hmem
      exact absurd hmem (by simp)

/-- Example primary fetcher: succeeds for ticker A, raises otherwise. -/
def fetchYfEx : String → YfResult :=
  fun t => if t = "A" then YfResult.ok [(1, 10), (2, 11)] else YfResult.raise

/-- Example secondary fetcher: succeeds for ticker B, raises otherwise. -/
def fetchFmpEx : String → FmpResult :=
  fun t => if t = "B" then FmpResult.historical [(1, 20), (2, 19)] else FmpResult.raise

/-- Witness for C1: ticker B fails on yfinance and is served by FMP. -/
theorem c1_fallback_tiebreak_check :
    dictLookup (fallbackRun ["A", "B"] fetchYfEx (some "k") fetchFmpEx).1 "B" =
      some (fmpSeries [(1, 20), (2, 19)]) :=
  (c1_fallback_tiebreak ["A", "B"] fetchYfEx (some "k") fetchFmpEx "B").2.1
    rfl (by simp) rfl (fmpSeries [(1, 20), (2, 19)]) rfl

/-- C8: with no FMP key configured (unset or empty), the fallback branch
is skipped entirely: FMP is invoked on no ticker, the final mapping is the
yfinance mapping, and every primary-failed ticker is absent from it. -/
theorem c8_unconfigured_no_fallback :
    ∀ (tickers : List String) (fetchYf : String → YfResult) (apiKey : Option String)
      (fetchFmp : String → FmpResult),
      truthy apiKey = false →
      (∃ t ∈ tickers, yfOutcome fetchYf t = none) →
      (fallbackRun tickers fetchYf apiKey fetchFmp).2 = [] ∧
      (fallbackRun tickers fetchYf apiKey fetchFmp).1 =
        get_stock_data_yf fetchYf tickers ∧
      ∀ t, yfOutcome fetchYf t = none →
        dictLookup (fallbackRun tickers fetchYf apiKey fetchFmp).1 t = none := by
  intro tickers fetchYf apiKey fetchFmp hk _
  have hrun : fallbackRun tickers fetchYf apiKey fetchFmp =
      (get_stock_data_yf fetchYf tickers, []) := by
    simp only [fallbackRun]
    rw [hk, Bool.and_false]
    simp
  refine ⟨by rw [hrun], by rw [hrun], ?_⟩
  intro t hn
  rw [hrun]
  simp only
  rw [get_stock_data_yf_lookup]
  by_cases ht : t ∈ tickers
  · rw [if_pos ht, hn]
  · rw [if_neg ht]

/-- Example fetcher that raises for every ticker. -/
def yfRaiseEx : String → YfResult := fun _ => YfResult.raise

/-- Example FMP fetcher that raises for every ticker. -/
def fmpRaiseEx : String → FmpResult := fun _ => FmpResult.raise

/-- Witness for C8: with an empty API key, FMP is invoked on no ticker. -/
theorem c8_unconfigured_no_fallback_check :
    (fallbackRun ["A"] yfRaiseEx (some "") fmpRaiseEx).2 = [] :=
  (c8_unconfigured_no_fallback ["A"] yfRaiseEx (some "") fmpRaiseEx rfl
    ⟨"A", by simp, rfl⟩).1

/-- C10: whatever the input ticker list (duplicates included) and provider
behaviour, the final mapping holds at most one entry per ticker and its
keys all come from the input list. -/
theorem c10_result_keys :
    ∀ (tickers : List String) (fetchYf : String → YfResult) (apiKey : Option String)
      (fetchFmp : String → FmpResult),
      ((fallbackRun tickers fetchYf apiKey fetchFmp).1.map Prod.fst).Nodup ∧
      ∀ t ∈ (fallbackRun tickers fetchYf apiKey fetchFmp).1.map Prod.fst,
        t ∈ tickers := by
  intro tickers fetchYf apiKey fetchFmp
  by_cases hc :
      (!(tickers.filter
          (fun u => (dictLookup (get_stock_data_yf fetchYf tickers) u).isNone)).isEmpty
        && truthy apiKey) = true
  · have hrun : fallbackRun tickers fetchYf apiKey fetchFmp =
        (dictUpdate (get_stock_data_yf fetchYf tickers)
          (get_stock_data_fmp fetchFmp
            (tickers.filter
              (fun u => (dictLookup (get_stock_data_yf fetchYf tickers) u).isNone))),
         tickers.filter
           (fun u => (dictLookup (get_stock_data_yf fetchYf tickers) u).isNone)) := by
      simp only [fallbackRun]
      rw [if_pos hc]
    rw [hrun]
    refine ⟨nodup_keys_dictUpdate _ _ (nodup_keys_yf _ _), ?_⟩
    intro t ht
    rcases keys_dictUpdate _ _ t ht with hin | hin
    · exact keys_yf_sub _ _ t hin
    · have := keys_fmp_sub _ _ t hin
      exact ((mem_failed_iff tickers fetchYf t).mp this).1
  · have hrun : fallbackRun tickers fetchYf apiKey fetchFmp =
        (get_stock_data_yf fetchYf tickers, []) := by
      simp only [fallbackRun]
      rw [if_neg hc]
    rw [hrun]
    exact ⟨nodup_keys_yf _ _, fun t ht => keys_yf_sub _ _ t ht⟩

/-- Witness for C10 on a ticker list with a duplicate entry. -/
theorem c10_result_keys_check :
    ((fallbackRun ["A", "A"] fetchYfEx none fetchFmpEx).1.map Prod.fst).Nodup :=
  (c10_result_keys ["A", "A"] fetchYfEx none fetchFmpEx).1

/-- C3: `pd.DataFrame(stock_returns)` is an outer join.  For a non-empty
mapping of well-formed series, the row index is the strictly sorted union
of all dates of all series, each input ticker is one column in order,
cells at dates absent from a ticker's own series are the missing-value
marker `NaN` (which differs from a zero return), and a single-ticker
mapping reproduces that series' dates and values unchanged. -/
theorem c3_outer_join :
    ∀ d : List (String × Series),
      d ≠ [] →
      (∀ p ∈ d, List.Sorted (· < ·) (p.2.map Prod.fst)) →
      List.Sorted (· < ·) (pdDataFrame d).dates ∧
      (∀ x : ℕ, x ∈ (pdDataFrame d).dates ↔ ∃ p ∈ d, x ∈ p.2.map Prod.fst) ∧
      (pdDataFrame d).cols.map Prod.fst = d.map Prod.fst ∧
      (∀ p ∈ d,
        (p.1, (pdDataFrame d).dates.map (seriesGet p.2)) ∈ (pdDataFrame d).cols ∧
        ∀ x ∈ (pdDataFrame d).dates, x ∉ p.2.map Prod.fst →
          seriesGet p.2 x = FVal.nan) ∧
      (∀ (t : String) (s : Series), d = [(t, s)] →
        (pdDataFrame d).dates = s.map Prod.fst ∧
        (pdDataFrame d).cols = [(t, s.map Prod.snd)]) ∧
      FVal.nan ≠ FVal.val 0 := by
  intro d _ hsort
  refine ⟨?_, ?_, ?_, ?_, ?_, by decide⟩
  · exact unionDates_sorted _
  · intro x
    show x ∈ unionDates (d.map (fun p => p.2.map Prod.fst)) ↔ _
    rw [mem_unionDates]
    constructor
    · rintro ⟨l, hl, hx⟩
      obtain ⟨p, hp, rfl⟩ := List.mem_map.mp hl
      exact ⟨p, hp, hx⟩
    · rintro ⟨p, hp, hx⟩
      exact ⟨p.2.map Prod.fst, List.mem_map_of_mem _ hp, hx⟩
  · show (d.map _).map Prod.fst = d.map Prod.fst
    rw [List.map_map]
    exact List.map_congr_left (fun p _ => rfl)
  · intro p hp
    constructor
    · exact List.mem_map_of_mem _ hp
    · intro x _ hnot
      exact seriesGet_not_mem _ _ hnot
  · rintro t s rfl
    have hs : List.Sorted (· < ·) (s.map Prod.fst) := hsort (t, s) (by simp)
    have hd : unionDates ([(t, s)].map (fun p => p.2.map Prod.fst)) =
        s.map Prod.fst := by
      have h1 : ([(t, s)].map (fun p => p.2.map Prod.fst)).flatten = s.map Prod.fst := by
        simp
      rw [unionDates, h1, foldr_insertDate_self _ hs]
    refine ⟨hd, ?_⟩
    show [(t, (unionDates ([(t, s)].map (fun p => p.2.map Prod.fst))).map (seriesGet s))]
        = [(t, s.map Prod.snd)]
    rw [hd, map_seriesGet_self s hs.nodup]

/-- Example mapping for the outer-join witness. -/
def dEx : List (String × Series) :=
  [("A", [(1, FVal.val 1)]), ("B", [(2, FVal.val 2)])]

/-- Witness for C3: two single-date tickers merge to a sorted row index. -/
theorem c3_outer_join_check :
    List.Sorted (· < ·) (pdDataFrame dEx).dates :=
  (c3_outer_join dEx (by decide) (by decide)).1

/-- Counterexample to C5: with the ticker-list file missing, `main`
returns at line 82 before line 97 ever runs, so no ReturnTable at all is
constructed — not even the empty one `pd.DataFrame({})` would give. -/
theorem c5_missing_file_no_table_cex :
    main CsvOutcome.missing fetchYfEx none fetchFmpEx =
      Except.ok { table := none, fmpCalled := [] } ∧
    main CsvOutcome.missing fetchYfEx none fetchFmpEx ≠
      Except.ok { table := some (pdDataFrame []), fmpCalled := [] } := by
  constructor
  · rfl
  · intro h
    have h1 := Except.ok.inj h
    have h2 := congrArg RunResult.table h1
    exact Option.noConfusion h2

/-- C5 (amended): a missing ticker-list file yields an empty ticker list
and a clean early exit of the run, with no ReturnTable constructed. -/
theorem c5_missing_file_early_exit :
    ∀ (fetchYf : String → YfResult) (apiKey : Option String)
      (fetchFmp : String → FmpResult),
      get_sp500_tickers CsvOutcome.missing = Except.ok [] ∧
      main CsvOutcome.missing fetchYf apiKey fetchFmp =
        Except.ok { table := none, fmpCalled := [] } :=
  fun _ _ _ => ⟨rfl, rfl⟩

/-- Example FMP fetcher returning the same date twice. -/
def fmpDupEx : String → FmpResult :=
  fun _ => FmpResult.historical [(1, 10), (1, 10)]

/-- Counterexample to C7: when the FMP service returns two records with
the same date, the retained series keeps the duplicate date, so its dates
are not strictly increasing. -/
theorem c7_duplicate_dates_cex :
    dictLookup (fallbackRun ["A"] yfRaiseEx (some "k") fmpDupEx).1 "A" =
      some [(1, FVal.nan), (1, FVal.val ((10 : ℚ) / 10 - 1))] ∧
    (([(1, FVal.nan), (1, FVal.val ((10 : ℚ) / 10 - 1))] : Series).map Prod.fst
      = [1, 1]) ∧
    ¬ List.Sorted (· < ·) ([1, 1] : List ℕ) := by
  refine ⟨rfl, rfl, ?_⟩
  intro h
  rw [List.sorted_cons] at h
  exact absurd (h.1 1 (by simp)) (lt_irrefl 1)

/-- C7 (amended): the FMP adapter sorts the raw records ascending by date
before computing returns, but keeps duplicate dates; the retained series'
dates are therefore non-decreasing (not necessarily strictly increasing),
and the returns are computed from the sorted prices. -/
theorem c7_fmp_sorted_nonstrict :
    ∀ rows : List (ℕ × ℚ),
      List.Sorted (· ≤ ·) ((fmpSeries rows).map Prod.fst) ∧
      (fmpSeries rows).map Prod.fst = (sortByDate rows).map Prod.fst ∧
      (fmpSeries rows).map Prod.snd =
        computeReturns ((sortByDate rows).map Prod.snd) := by
  intro rows
  refine ⟨?_, fmpSeries_dates rows, fmpSeries_values rows⟩
  rw [fmpSeries_dates]
  exact List.pairwise_map.mpr (sortByDate_pairwise rows)

theorem mem_dictInsert {β : Type} (d : List (String × β)) (k : String) (v : β)
    (q : String × β) (h : q ∈ dictInsert d k v) : q ∈ d ∨ q = (k, v) := by
  induction d with
  | nil =>
    simp [dictInsert] at h
    right; exact h
  | cons p d ih =>
    obtain ⟨k0, v0⟩ := p
    by_cases h0 : k0 = k
    · have hl : dictInsert ((k0, v0) :: d) k v = (k0, v) :: d := by
        simp [dictInsert, h0]
      rw [hl] at h
      rcases List.mem_cons.mp h with rfl | hq
      · right; rw [h0]
      · left; exact List.mem_cons_of_mem _ hq
    · have hl : dictInsert ((k0, v0) :: d) k v = (k0, v0) :: dictInsert d k v := by
        simp [dictInsert, h0]
      rw [hl] at h
      rcases List.mem_cons.mp h with rfl | hq
      · left; exact List.mem_cons_self _ _
      · rcases ih hq with hq2 | hq2
        · left; exact List.mem_cons_of_mem _ hq2
        · right; exact hq2

theorem mem_entry_dictUpdate {β : Type} (d d2 : List (String × β)) (q : String × β)
    (h : q ∈ dictUpdate d d2) : q ∈ d ∨ q ∈ d2 := by
  induction d2 generalizing d with
  | nil => exact Or.inl h
  | cons p d2 ih =>
    obtain ⟨k, v⟩ := p
    have step : dictUpdate d ((k, v) :: d2) = dictUpdate (dictInsert d k v) d2 := rfl
    rw [step] at h
    rcases ih _ h with hin | hin
    · rcases mem_dictInsert d k v q hin with hd | hq
      · exact Or.inl hd
      · right; rw [hq]; exact List.mem_cons_self _ _
    · right; exact List.mem_cons_of_mem _ hin

theorem collect_mem_outcome {β : Type} (outcome : String → Option β) (ts : List String)
    (acc : List (String × β)) (q : String × β)
    (h : q ∈ ts.foldl (collectStep outcome) acc) :
    q ∈ acc ∨ outcome q.1 = some q.2 := by
  induction ts generalizing acc with
  | nil => exact Or.inl h
  | cons x rest ih =>
    simp only [List.foldl_cons] at h
    rcases ih _ h with hin | hout
    · cases ho : outcome x with
      | none =>
        simp only [collectStep, ho] at hin
        exact Or.inl hin
      | some s =>
        simp only [collectStep, ho] at hin
        rcases mem_dictInsert acc x s q hin with ha | hq
        · exact Or.inl ha
        · right; rw [hq]; exact ho
    · exact Or.inr hout

theorem yf_mem_outcome (fetch : String → YfResult) (tickers : List String)
    (q : String × Series) (h : q ∈ get_stock_data_yf fetch tickers) :
    yfOutcome fetch q.1 = some q.2 := by
  rw [get_stock_data_yf, yfStep_eq_collectStep] at h
  rcases collect_mem_outcome _ tickers [] q h with hin | hout
  · exact absurd hin (by simp)
  · exact hout

theorem fmp_mem_outcome (fetch : String → FmpResult) (tickers : List String)
    (q : String × Series) (h : q ∈ get_stock_data_fmp fetch tickers) :
    fmpOutcome fetch q.1 = some q.2 := by
  rw [get_stock_data_fmp, fmpStep_eq_collectStep] at h
  rcases collect_mem_outcome _ tickers [] q h with hin | hout
  · exact absurd hin (by simp)
  · exact hout

theorem yfOutcome_some_rows (fetch : String → YfResult) (t : String) (s : Series)
    (h : yfOutcome fetch t = some s) :
    ∃ rows, fetch t = YfResult.ok rows ∧ s = mkSeries rows := by
  rw [yfOutcome] at h
  cases hf : fetch t with
  | raise => simp [hf] at h
  | ok rows =>
    rw [hf] at h
    by_cases he : rows.isEmpty
    · simp [he] at h
    · simp [he] at h
      exact ⟨rows, rfl, h.symm⟩

theorem fmpOutcome_some_rows (fetch : String → FmpResult) (t : String) (s : Series)
    (h : fmpOutcome fetch t = some s) :
    ∃ rows, fetch t = FmpResult.historical rows ∧ s = fmpSeries rows := by
  rw [fmpOutcome] at h
  cases hf : fetch t with
  | raise => simp [hf] at h
  | noHistorical => simp [hf] at h
  | historical rows =>
    rw [hf] at h
    by_cases he : rows.isEmpty
    · simp [he] at h
    · simp [he] at h
      exact ⟨rows, rfl, h.symm⟩

theorem mkSeries_dates (rows : List (ℕ × ℚ)) :
    (mkSeries rows).map Prod.fst = rows.map Prod.fst := by
  apply List.map_fst_zip
  simp [computeReturns_length]

theorem insertByDate_perm (p : ℕ × ℚ) (l : List (ℕ × ℚ)) :
    List.Perm (insertByDate p l) (p :: l) := by
  induction l with
  | nil => exact List.Perm.refl _
  | cons q l ih =>
    by_cases h : p.1 < q.1
    · simp only [insertByDate, if_pos h]
      exact List.Perm.refl _
    · simp only [insertByDate, if_neg h]
      exact (List.Perm.cons q ih).trans (List.Perm.swap p q l)

theorem sortByDate_perm (rows : List (ℕ × ℚ)) :
    List.Perm (sortByDate rows) rows := by
  induction rows with
  | nil => exact List.Perm.refl _
  | cons p l ih =>
    exact (insertByDate_perm p (sortByDate l)).trans (List.Perm.cons p ih)

theorem fmpSeries_dates_nodup (rows : List (ℕ × ℚ))
    (h : (rows.map Prod.fst).Nodup) : ((fmpSeries rows).map Prod.fst).Nodup := by
  rw [fmpSeries_dates]
  have hperm : List.Perm ((sortByDate rows).map Prod.fst) (rows.map Prod.fst) :=
    (sortByDate_perm rows).map Prod.fst
  exact hperm.nodup_iff.mpr h

theorem fallbackRun_mem_outcome (tickers : List String) (fetchYf : String → YfResult)
    (apiKey : Option String) (fetchFmp : String → FmpResult) (q : String × Series)
    (h : q ∈ (fallbackRun tickers fetchYf apiKey fetchFmp).1) :
    yfOutcome fetchYf q.1 = some q.2 ∨ fmpOutcome fetchFmp q.1 = some q.2 := by
  by_cases hc :
      (!(tickers.filter
          (fun u => (dictLookup (get_stock_data_yf fetchYf tickers) u).isNone)).isEmpty
        && truthy apiKey) = true
  · have hrun : fallbackRun tickers fetchYf apiKey fetchFmp =
        (dictUpdate (get_stock_data_yf fetchYf tickers)
          (get_stock_data_fmp fetchFmp
            (tickers.filter
              (fun u => (dictLookup (get_stock_data_yf fetchYf tickers) u).isNone))),
         tickers.filter
           (fun u => (dictLookup (get_stock_data_yf fetchYf tickers) u).isNone)) := by
      simp only [fallbackRun]
      rw [if_pos hc]
    rw [hrun] at h
    rcases mem_entry_dictUpdate _ _ q h with hin | hin
    · exact Or.inl (yf_mem_outcome _ _ q hin)
    · exact Or.inr (fmp_mem_outcome _ _ q hin)
  · have hrun : fallbackRun tickers fetchYf apiKey fetchFmp =
        (get_stock_data_yf fetchYf tickers, []) := by
      simp only [fallbackRun]
      rw [if_neg hc]
    rw [hrun] at h
    exact Or.inl (yf_mem_outcome _ _ q h)

theorem pdDataFrameCall_ok_of_nodup (d : List (String × Series))
    (h : ∀ p ∈ d, (p.2.map Prod.fst).Nodup) : (pdDataFrameCall d).isOk = true := by
  rw [pdDataFrameCall]
  by_cases h1 : allDatesEq d = true
  · rw [if_pos h1]
    rfl
  · rw [if_neg h1]
    have h2 : d.all (fun p => decide ((p.2.map Prod.fst).Nodup)) = true := by
      rw [List.all_eq_true]
      intro p hp
      exact decide_eq_true (h p hp)
    rw [if_pos h2]
    rfl

theorem isOk_exists {α : Type} (e : Except PyErr α) (h : e.isOk = true) :
    ∃ a, e = Except.ok a := by
  cases e with
  | error err => simp [Except.isOk, Except.toBool] at h
  | ok a => exact ⟨a, rfl⟩

theorem insertDate_mem_of_sorted (x : ℕ) (acc : List ℕ)
    (hs : List.Sorted (· < ·) acc) (hx : x ∈ acc) : insertDate x acc = acc := by
  induction acc with
  | nil => simp at hx
  | cons y l ih =>
    rw [List.sorted_cons] at hs
    rcases List.mem_cons.mp hx with rfl | hxl
    · simp [insertDate]
    · have hyx : y < x := hs.1 x hxl
      have h1 : ¬ x < y := by omega
      have h2 : ¬ x = y := by omega
      simp only [insertDate, if_neg h1, if_neg h2, ih hs.2 hxl]

theorem foldr_insertDate_subset (l acc : List ℕ) (hs : List.Sorted (· < ·) acc)
    (h : ∀ x ∈ l, x ∈ acc) : l.foldr insertDate acc = acc := by
  induction l with
  | nil => rfl
  | cons x l ih =>
    have hrest : l.foldr insertDate acc = acc :=
      ih (fun y hy => h y (List.mem_cons_of_mem _ hy))
    simp only [List.foldr_cons, hrest]
    exact insertDate_mem_of_sorted x acc hs (h x (List.mem_cons_self _ _))

theorem unionDates_all_eq (ls : List (List ℕ)) (l0 : List ℕ)
    (h : ∀ l ∈ ls, l = l0) (hs : List.Sorted (· < ·) l0) :
    unionDates ls = [] ∨ unionDates ls = l0 := by
  induction ls with
  | nil => left; rfl
  | cons l ls ih =>
    have hl : l = l0 := h l (List.mem_cons_self _ _)
    have ih2 := ih (fun m hm => h m (List.mem_cons_of_mem _ hm))
    right
    have hstep : unionDates (l :: ls) = l.foldr insertDate (unionDates ls) := by
      rw [unionDates, unionDates, List.flatten_cons, List.foldr_append]
    rw [hstep, hl]
    rcases ih2 with hu | hu
    · rw [hu]
      exact foldr_insertDate_self l0 hs
    · rw [hu]
      exact foldr_insertDate_subset l0 l0 hs (fun x hx => hx)

theorem unionDates_cons_all_eq (ls : List (List ℕ)) (l0 : List ℕ)
    (h : ∀ l ∈ ls, l = l0) (hs : List.Sorted (· < ·) l0) :
    unionDates (l0 :: ls) = l0 := by
  have hall : ∀ l ∈ l0 :: ls, l = l0 := by
    intro l hl
    rcases List.mem_cons.mp hl with rfl | hm
    · rfl
    · exact h l hm
  rcases unionDates_all_eq (l0 :: ls) l0 hall hs with hu | hu
  · cases l0 with
    | nil => exact hu
    | cons a l =>
      exfalso
      have hmem : a ∈ unionDates ((a :: l) :: ls) :=
        (mem_unionDates _ a).mpr
          ⟨a :: l, List.mem_cons_self _ _, List.mem_cons_self _ _⟩
      rw [hu] at hmem
      simp at hmem
  · exact hu

theorem pdDataFrameCall_eq_of_sorted (d : List (String × Series))
    (hsort : ∀ p ∈ d, List.Sorted (· < ·) (p.2.map Prod.fst)) :
    pdDataFrameCall d = Except.ok (pdDataFrame d) := by
  by_cases hEq : allDatesEq d = true
  · rw [pdDataFrameCall, if_pos hEq]
    cases d with
    | nil => rfl
    | cons p rest =>
      simp only [allDatesEq] at hEq
      have hrest : ∀ q ∈ rest, q.2.map Prod.fst = p.2.map Prod.fst := by
        intro q hq
        exact of_decide_eq_true (List.all_eq_true.mp hEq q hq)
      have hs0 : List.Sorted (· < ·) (p.2.map Prod.fst) :=
        hsort p (List.mem_cons_self _ _)
      have hdates : unionDates ((p :: rest).map (fun r => r.2.map Prod.fst)) =
          p.2.map Prod.fst := by
        rw [List.map_cons]
        apply unionDates_cons_all_eq _ _ _ hs0
        intro l hl
        obtain ⟨q, hq, rfl⟩ := List.mem_map.mp hl
        exact hrest q hq
      have hpd : pdDataFrame (p :: rest) =
          { dates := unionDates ((p :: rest).map (fun r => r.2.map Prod.fst)),
            cols := (p :: rest).map (fun q =>
              (q.1, (unionDates ((p :: rest).map (fun r => r.2.map Prod.fst))).map
                      (seriesGet q.2))) } := rfl
      have hcols : (p :: rest).map (fun q =>
            (q.1, (p.2.map Prod.fst).map (seriesGet q.2)))
          = (p :: rest).map (fun q => (q.1, q.2.map Prod.snd)) := by
        apply List.map_congr_left
        intro q hq
        have hqd : q.2.map Prod.fst = p.2.map Prod.fst := by
          rcases List.mem_cons.mp hq with rfl | hq2
          · rfl
          · exact hrest q hq2
        have hnd : (q.2.map Prod.fst).Nodup := by
          rw [hqd]
          exact hs0.nodup
        rw [← hqd, map_seriesGet_self q.2 hnd]
      rw [hpd, hdates, hcols]
      rfl
  · rw [pdDataFrameCall, if_neg hEq]
    have h2 : d.all (fun p => decide ((p.2.map Prod.fst).Nodup)) = true := by
      rw [List.all_eq_true]
      intro p hp
      exact decide_eq_true (hsort p hp).nodup
    rw [if_pos h2]

/-- Counterexample to C9: a ticker-list file that exists but lacks the
`Symbol` column raises an uncaught `KeyError`; the run is aborted rather
than terminating normally with an empty result. -/
theorem c9_malformed_file_fatal_cex :
    main (CsvOutcome.found [("Name", [Cell.str "Apple"])]) fetchYfEx (some "k")
        fetchFmpEx = Except.error PyErr.keyError := rfl

/-- C9 (amended): a missing ticker-list file and all per-ticker fetch
errors are non-fatal, and the run terminates normally whenever the
`Symbol` column exists and every fetched price history carries
duplicate-free dates; but two error paths abort the run uncaught: a
ticker-list file lacking the `Symbol` column raises a `KeyError`, and the
final merge raises pandas' duplicate-axis `ValueError` when a retained
duplicate-date series is aligned against a differing series. -/
theorem c9_error_containment :
    (∀ (fetchYf : String → YfResult) (apiKey : Option String)
      (fetchFmp : String → FmpResult),
      main CsvOutcome.missing fetchYf apiKey fetchFmp =
        Except.ok { table := none, fmpCalled := [] }) ∧
    (∀ (cols : List (String × List Cell)) (fetchYf : String → YfResult)
      (apiKey : Option String) (fetchFmp : String → FmpResult),
      (dictLookup cols "Symbol").isSome = true →
      (∀ (t : String) (rows : List (ℕ × ℚ)), fetchYf t = YfResult.ok rows →
        (rows.map Prod.fst).Nodup) →
      (∀ (t : String) (rows : List (ℕ × ℚ)), fetchFmp t = FmpResult.historical rows →
        (rows.map Prod.fst).Nodup) →
      (main (CsvOutcome.found cols) fetchYf apiKey fetchFmp).isOk = true) ∧
    (∀ (cols : List (String × List Cell)) (fetchYf : String → YfResult)
      (apiKey : Option String) (fetchFmp : String → FmpResult),
      dictLookup cols "Symbol" = none →
      main (CsvOutcome.found cols) fetchYf apiKey fetchFmp =
        Except.error PyErr.keyError) ∧
    main (CsvOutcome.found [("Symbol", [Cell.str "A", Cell.str "B"])]) fetchYfEx
      (some "k") fmpDupEx = Except.error PyErr.valueError := by
  refine ⟨fun _ _ _ => rfl, ?_, ?_, ?_⟩
  · intro cols f k g hsym hyf hfmp
    cases hl : dictLookup cols "Symbol" with
    | none => rw [hl] at hsym; simp at hsym
    | some cells =>
      simp only [main, get_sp500_tickers, hl]
      by_cases he : (cells.filterMap (fun c =>
          match c with
          | Cell.str s => some s
          | Cell.nanCell => none)).isEmpty
      · simp [he, Except.isOk, Except.toBool]
      · rw [if_neg he]
        have hnodup : ∀ p ∈ (fallbackRun (cells.filterMap (fun c =>
            match c with
            | Cell.str s => some s
            | Cell.nanCell => none)) f k g).1, (p.2.map Prod.fst).Nodup := by
          intro p hp
          rcases fallbackRun_mem_outcome _ f k g p hp with hout | hout
          · obtain ⟨rows, hfr, hps⟩ := yfOutcome_some_rows f p.1 p.2 hout
            rw [hps, mkSeries_dates]
            exact hyf p.1 rows hfr
          · obtain ⟨rows, hfr, hps⟩ := fmpOutcome_some_rows g p.1 p.2 hout
            rw [hps]
            exact fmpSeries_dates_nodup rows (hfmp p.1 rows hfr)
        obtain ⟨tbl, htbl⟩ := isOk_exists _ (pdDataFrameCall_ok_of_nodup _ hnodup)
        rw [htbl]
        rfl
  · intro cols f k g h
    simp only [main, get_sp500_tickers, h]
  · rfl

/-- Witness for C9 (amended): a well-formed symbol column with one string
entry and one NaN entry terminates normally for all-raising providers
(which trivially fetch only duplicate-free histories). -/
theorem c9_error_containment_check :
    (main (CsvOutcome.found [("Symbol", [Cell.str "A", Cell.nanCell])]) yfRaiseEx
      none fmpRaiseEx).isOk = true :=
  c9_error_containment.2.1 [("Symbol", [Cell.str "A", Cell.nanCell])] yfRaiseEx
    none fmpRaiseEx rfl (fun _ _ h => YfResult.noConfusion h)
    (fun _ _ h => FmpResult.noConfusion h)

end GetFactors
